import Mathlib

/-!
Shallow embedding of the `when` date/time expression extraction engine
(`src/rules/src/lib.rs`, `src/rules/src/en/hour.rs`, `src/rules/src/tokens.rs`)
together with theorems checking the natural-language specification against it.

Strings are modelled as lists of characters (`Str`), Rust's `usize` as `Nat`
with the explicit constant `USIZE_MAX = 2^64 - 1` where the source relies on
`std::usize::MAX`.  The reference timestamp (`chrono::DateTime<Local>`) is
modelled as an opaque `Nat`; the scanning loop draws one fresh timestamp per
rule attempt from a `clock : Nat → Tm` stream, mirroring the per-attempt
`Local::now()` call in `apply_generic`.
-/

/-- Character strings, modelling Rust `&str` / `CompleteStr` slices. -/
abbrev Str := List Char

/-- Model of the reference timestamp `DateTime<Local>`; its value is never
inspected by the code under verification. -/
abbrev Tm := Nat

/-- Value of `std::usize::MAX`, used as the initial minimal distance in
`best_fit`. -/
def USIZE_MAX : Nat := 2 ^ 64 - 1

/-- Weekday tokens (src/rules/src/tokens.rs). -/
inductive Weekday where
  | monday | tuesday | wednesday | thursday | friday | saturday | sunday
deriving DecidableEq

/-- Temporal marker tokens (src/rules/src/tokens.rs). -/
inductive When where
  | this | last | past | next | now | today | tonight | tomorrow | yesterday
  | am | pm
deriving DecidableEq

/-- Semantic tokens (src/rules/src/tokens.rs).  `hour`'s payload is a `usize`
in the source, modelled as `Nat`. -/
inductive Token where
  | week : Token
  | weekday : Weekday → Token
  | tWhen : When → Token
  | hour : Nat → Token
deriving DecidableEq

/-- Prioritized tokens (src/rules/src/tokens.rs): a token plus an `isize`
priority, or the special values `None` and `Stub`. -/
inductive PToken where
  | none : PToken
  | stub : PToken
  | ptoken : Token → Int → PToken
deriving DecidableEq

/-- Result of one recognizer attempt (`TokenDesc` in src/rules/src/lib.rs):
the produced prioritized token and the edit distance at which it matched. -/
structure TokenDesc where
  token : PToken
  dist : Nat
deriving DecidableEq

/-- Modelled from the spec: the error taxonomy of `errors.rs`, which is not
present under src/.  The source uses opaque `u32` codes `UNKNOWN`,
`OUT_OF_BOUNDS`, `EMPTY`, `AMBIGUOUS`; only their identity matters, so they
are modelled as an enumeration. -/
inductive ParseErr where
  | unknown | outOfBounds | empty | ambiguous
deriving DecidableEq

/-- Result of one parser/recognizer invocation, modelling
`MyResult = IResult<CompleteStr, TokenDesc, u32>`: either `Ok((tail, desc))`
or the error produced by `wrap_error(input, code)`, which records the input
it failed on and the error code. -/
inductive MyResult where
  | ok : Str → TokenDesc → MyResult
  | error : Str → ParseErr → MyResult
deriving DecidableEq

/-- Builds an error result carrying the failing input and an error code
(`wrap_error` in src/rules/src/lib.rs). -/
def wrap_error (input : Str) (code : ParseErr) : MyResult :=
  MyResult.error input code

/-- Separator predicate of `ltrim` (src/rules/src/lib.rs): whitespace or a
comma.  Rust's Unicode `char::is_whitespace` is modelled by Lean's
`Char.isWhitespace`; all inputs of interest are ASCII. -/
def isSep (c : Char) : Bool :=
  c.isWhitespace || c = ','

/-- Trims separator characters from the front of the input (`ltrim` in
src/rules/src/lib.rs); returns the remainder. -/
def ltrim (s : Str) : Str :=
  s.dropWhile isSep

/-- Tokenizes one word (`tokenize_word` in src/rules/src/lib.rs): after
`ltrim`, takes the maximal alphabetic run.  Returns `(tail, word)`, in the
same order as the source's `Ok((tail, word))`.  Rust's Unicode
`char::is_alphabetic` is modelled by `Char.isAlpha`. -/
def tokenize_word (s : Str) : Str × Str :=
  ((ltrim s).dropWhile Char.isAlpha, (ltrim s).takeWhile Char.isAlpha)

/-- Numeric value of a digit run, as computed by `str::parse::<usize>`. -/
def digitsToNat (ds : Str) : Nat :=
  ds.foldl (fun a c => 10 * a + (c.toNat - 48)) 0

/-- Tokenizes one unsigned integer (`recognize_uint` in src/rules/src/lib.rs):
after `ltrim`, takes a non-empty maximal digit run and parses it as `usize`;
fails when the run is empty or the value overflows `usize`
(`map_res!` turns the failed `parse::<usize>` into a parser error). -/
def recognize_uint (s : Str) : Option (Str × Nat) :=
  let r := ltrim s
  let ds := r.takeWhile Char.isDigit
  if ds = [] then none
  else if digitsToNat ds ≤ USIZE_MAX then some (r.dropWhile Char.isDigit, digitsToNat ds)
  else none

/-- Fuelled core of the Damerau–Levenshtein distance; the fuel argument only
ensures structural recursion and never runs out when it starts at the sum of
the lengths (each step shrinks that sum by at least as much as the fuel). -/
def dl_fuel : Nat → Str → Str → Nat
  | _, [], ys => ys.length
  | _, _ :: xs, [] => xs.length + 1
  | 0, _, _ => 0
  | fuel + 1, x :: xs, y :: ys =>
      let base :=
        if x = y then dl_fuel fuel xs ys
        else 1 + min (dl_fuel fuel (x :: xs) ys)
                 (min (dl_fuel fuel xs (y :: ys)) (dl_fuel fuel xs ys))
      match xs, ys with
      | x2 :: xs2, y2 :: ys2 =>
          if x = y2 ∧ y = x2 then min base (1 + dl_fuel fuel xs2 ys2) else base
      | _, _ => base

/-- Modelled from the spec: the Damerau–Levenshtein edit distance provided by
the external `strsim` crate (not part of this repository) — insertions,
deletions, substitutions and adjacent transpositions, per the spec's
glossary. -/
def damerau_levenshtein (xs ys : Str) : Nat :=
  dl_fuel (xs.length + ys.length) xs ys

/-- Effective maximal distance (the `set!` macro in src/rules/src/lib.rs):
exact-match mode forces the distance to 0. -/
def set_max (max_dist : Nat) (exact_match : Bool) : Nat :=
  if exact_match then 0 else max_dist

/-- Fuzzy word recognizer (`recognize_word` in src/rules/src/lib.rs). -/
def recognize_word (input pattern : Str) (max_dist : Nat) (token : PToken) :
    MyResult :=
  let tw := tokenize_word input
  if tw.2 = [] then wrap_error input ParseErr.empty
  else if max_dist = 0 then
    if tw.2 = pattern then MyResult.ok tw.1 ⟨token, 0⟩
    else wrap_error input ParseErr.unknown
  else
    if damerau_levenshtein tw.2 pattern ≤ max_dist then
      MyResult.ok tw.1 ⟨token, damerau_levenshtein tw.2 pattern⟩
    else wrap_error input ParseErr.unknown

/-- Mutable state of the `best_fit` loop (src/rules/src/lib.rs):
`min_dist`, `selected_token`, `selected_count`, `selected_tail`. -/
structure BFState where
  min_dist : Nat
  selected_token : PToken
  selected_count : Nat
  selected_tail : Str
deriving DecidableEq

/-- Initial `best_fit` state: `min_dist = usize::MAX`, no token selected. -/
def bf_init : BFState :=
  ⟨USIZE_MAX, PToken.none, 0, []⟩

/-- One iteration of the `best_fit` loop on a successful candidate result. -/
def bf_step (st : BFState) (r : Str × TokenDesc) : BFState :=
  if st.min_dist > r.2.dist then ⟨r.2.dist, r.2.token, 1, r.1⟩
  else if st.min_dist = r.2.dist then
    ⟨st.min_dist, st.selected_token, st.selected_count + 1, st.selected_tail⟩
  else st

/-- Runs a candidate and keeps its result only when it succeeded. -/
def bf_try (input : Str) (exact_match : Bool)
    (f : Str → Bool → MyResult) : Option (Str × TokenDesc) :=
  match f input exact_match with
  | MyResult.ok tail td => some (tail, td)
  | MyResult.error _ _ => none

/-- Successful candidate results of a `best_fit` invocation, in candidate
order. -/
def bf_succs (input : Str) (exact_match : Bool)
    (funcs : List (Str → Bool → MyResult)) : List (Str × TokenDesc) :=
  funcs.filterMap (bf_try input exact_match)

/-- Minimal distance over a success list, starting from `usize::MAX` exactly
as `best_fit`'s loop does. -/
def bf_min (L : List (Str × TokenDesc)) : Nat :=
  L.foldl (fun m r => min m r.2.dist) USIZE_MAX

/-- Successful candidate results achieving the minimal distance. -/
def bf_achievers (L : List (Str × TokenDesc)) : List (Str × TokenDesc) :=
  L.filter (fun r => r.2.dist = bf_min L)

/-- Best-fit alternative selector (`best_fit` in src/rules/src/lib.rs): runs
every candidate on the same input, keeps the minimum observed distance,
returns the unique winner, and fails with `AMBIGUOUS` on a tie or `UNKNOWN`
when no candidate succeeded. -/
def best_fit (input : Str) (exact_match : Bool)
    (funcs : List (Str → Bool → MyResult)) : MyResult :=
  let st := funcs.foldl
    (fun st f =>
      match f input exact_match with
      | MyResult.ok tail td => bf_step st (tail, td)
      | MyResult.error _ _ => st)
    bf_init
  if st.selected_count = 1 then
    MyResult.ok st.selected_tail ⟨st.selected_token, st.min_dist⟩
  else if st.selected_count > 1 then wrap_error input ParseErr.ambiguous
  else wrap_error input ParseErr.unknown

/-- Bounded numeric recognizer (the `define_num!` macro in
src/rules/src/lib.rs, instantiated with a constructor, priority and closed
bounds): parses an unsigned integer and accepts iff it lies within
`[lower_bound, upper_bound]`; a parsed but out-of-range value fails with
`OUT_OF_BOUNDS`, anything else with `UNKNOWN`. -/
def define_num (ctor : Nat → Token) (p : Int) (lower_bound upper_bound : Nat)
    (input : Str) : MyResult :=
  match recognize_uint input with
  | some (tail, n) =>
      if lower_bound ≤ n ∧ n ≤ upper_bound then
        MyResult.ok tail ⟨PToken.ptoken (ctor n) p, 0⟩
      else wrap_error input ParseErr.outOfBounds
  | none => wrap_error input ParseErr.unknown

/-- Hour recognizer (src/rules/src/en/hour.rs:
`define_num!(hour, (Token::Hour, 0), 0, 12)`). -/
def hour (input : Str) : MyResult :=
  define_num Token.hour 0 0 12 input

/-- First-success alternative of two recognizer results (nom's `alt!`
combinator as used by the `define!` macro). -/
def alt2 (a b : MyResult) : MyResult :=
  match a with
  | MyResult.ok tail td => MyResult.ok tail td
  | MyResult.error _ _ => b

/-- AM meridiem recognizer (src/rules/src/en/hour.rs `define!(am: ...)`):
tries the spellings "a.m.", "a.", "am" in order, each at maximal distance 0
and priority 1. -/
def am (input : Str) (exact_match : Bool) : MyResult :=
  alt2 (recognize_word input ("a.m.".toList) (set_max 0 exact_match)
          (PToken.ptoken (Token.tWhen When.am) 1))
    (alt2 (recognize_word input ("a.".toList) (set_max 0 exact_match)
             (PToken.ptoken (Token.tWhen When.am) 1))
      (recognize_word input ("am".toList) (set_max 0 exact_match)
         (PToken.ptoken (Token.tWhen When.am) 1)))

/-- PM meridiem recognizer (src/rules/src/en/hour.rs `define!(pm: ...)`). -/
def pm (input : Str) (exact_match : Bool) : MyResult :=
  alt2 (recognize_word input ("p.m.".toList) (set_max 0 exact_match)
          (PToken.ptoken (Token.tWhen When.pm) 1))
    (alt2 (recognize_word input ("p.".toList) (set_max 0 exact_match)
             (PToken.ptoken (Token.tWhen When.pm) 1))
      (recognize_word input ("pm".toList) (set_max 0 exact_match)
         (PToken.ptoken (Token.tWhen When.pm) 1)))

/-- Combined meridiem recognizer (src/rules/src/en/hour.rs
`combine!(when => am | pm)`, which expands to `best_fit`). -/
def when_comb (input : Str) (exact_match : Bool) : MyResult :=
  best_fit input exact_match [am, pm]

/-- Sequential composition of the hour and meridiem recognizers (the
`tuple!(hour, apply!(when, exact_match))` body of the hour rule's parser). -/
def hour_when (input : Str) (exact_match : Bool) :
    Option (Str × (TokenDesc × TokenDesc)) :=
  match hour input with
  | MyResult.error _ _ => none
  | MyResult.ok t1 d1 =>
      match when_comb t1 exact_match with
      | MyResult.error _ _ => none
      | MyResult.ok t2 d2 => some (t2, (d1, d2))

/-- Skip-then-match search of `many_till!(take!(1), ...)`: at each position
first try the hour-meridiem pair, otherwise consume one character into the
skipped list and retry; fail when the input is exhausted.  `acc` collects the
already-skipped one-character slices. -/
def hour_parse_go (exact_match : Bool) :
    Str → List Str → Option (Str × (List Str × (TokenDesc × TokenDesc)))
  | inp, acc =>
      match hour_when inp exact_match with
      | some (tail, tt) => some (tail, (acc, tt))
      | none =>
          match inp with
          | [] => none
          | c :: rest => hour_parse_go exact_match rest (acc ++ [[c]])

/-- Parser of the hour rule (src/rules/src/en/hour.rs `parse`): searches the
input position by position for an hour value followed by a meridiem marker,
returning the tail, the skipped one-character slices and the two token
descriptions. -/
def hour_parse (input : Str) (exact_match : Bool) :
    Option (Str × (List Str × (TokenDesc × TokenDesc))) :=
  hour_parse_go exact_match input []

/-- Relative span of a match (`MatchBounds` in the source's data model). -/
structure MatchBounds where
  start_idx : Nat
  end_idx : Nat
deriving DecidableEq

/-- Span computation (`match_bounds` in src/rules/src/lib.rs):
`start = 0` when nothing was skipped, else `skipped_count + 1`;
`end = input.len() - tail.len() - 1` (truncated `usize` subtraction). -/
def match_bounds (pre : List Str) (input : Str) (tail : Str) : MatchBounds :=
  ⟨if pre.length = 0 then 0 else pre.length + 1,
   input.length - tail.length - 1⟩

/-- Modelled from the spec: the derived semantic value (`TimeShift` in
`rules.rs`, which is not present under src/) — the spec's "derived semantic
value (e.g. total hours to shift)"; only its `hours` field is used by the
hour rule (`make_time` writes `hrs * HOUR` into it). -/
structure TimeShift where
  hours : Nat
deriving DecidableEq

/-- Modelled from the spec: `RuleResult` (the spec's `RuleOutcome`) from
`rules.rs`, which is not present under src/ — the unmatched tail, optionally
the selected tokens, optionally the match span, and optionally the derived
semantic value. -/
structure RuleResult where
  tail : Str
  tokens : Option (List Token)
  bounds : Option MatchBounds
  time_shift : Option TimeShift
deriving DecidableEq

/-- Modelled from the spec: `RuleResult::new()` from the missing `rules.rs`.
The tokens and bounds start absent; the derived-value slot must start
populated with a default, because the success path of `make_time`
(src/rules/src/en/hour.rs line 59) unconditionally unwraps it. -/
def RuleResult.new : RuleResult :=
  ⟨[], Option.none, Option.none, some ⟨0⟩⟩

/-- Priority stored in a prioritized token; `None` and `Stub` carry none. -/
def ptokenPriority : PToken → Int
  | PToken.ptoken _ p => p
  | _ => 0

/-- Semantic payload of a prioritized token, when it has one. -/
def ptokenToken : PToken → Option Token
  | PToken.ptoken t _ => some t
  | _ => Option.none

/-- Modelled from the spec: the conversion performed by
`RuleResult::set_tokens` (missing `rules.rs`) from the recognizers' token
descriptions to the rule's semantic tokens — per the spec's data model,
tokens with lower priority sort first (stable sort), and the payload-free
`None`/`Stub` values are dropped. -/
def select_tokens (ds : List TokenDesc) : List Token :=
  (((ds.map TokenDesc.token).insertionSort
      (fun a b => ptokenPriority a ≤ ptokenPriority b)).filterMap ptokenToken)

/-- Modelled from the spec: the hour unit `HOUR` from `consts.rs`, which is
not present under src/.  Its value 3600 (seconds per hour) is fixed by the
hour rule's own tests: 17 hours are asserted to equal 61200. -/
def HOUR : Nat := 3600

/-- Semantic derivation of the hour rule (`make_time` in
src/rules/src/en/hour.rs): an `Hour(n)` token sets the hour count to `n`, a
`PM` marker adds 12, an `AM` marker adds nothing (any other token is
`unreachable!` in the source); the derived value's hours become
`hrs * HOUR`. -/
def make_time (res : RuleResult) (_local : Tm) (_input : Str) : RuleResult :=
  let hrs := (res.tokens.getD []).foldl
    (fun hrs token =>
      match token with
      | Token.hour n => n
      | Token.tWhen When.pm => hrs + 12
      | Token.tWhen When.am => hrs
      | _ => hrs)
    0
  match res.time_shift with
  | some ts => { res with time_shift := some { ts with hours := hrs * HOUR } }
  | Option.none => res

/-- Hour rule interpreter (`make_interpreter!(indices[0, 1])` expanded in
src/rules/src/en/hour.rs): on a parse success, record the span computed by
`match_bounds`, the tokens at tuple indices 0 and 1 and the parse tail, then
derive the time value with `make_time`; on failure, only the tail is set to
the whole input. -/
def interpret (input : Str) (exact_match : Bool) (local_time : Tm) :
    RuleResult :=
  match hour_parse input exact_match with
  | some (tail, (skipped, tt)) =>
      let bounds := match_bounds skipped input tail
      let res : RuleResult :=
        { RuleResult.new with
            bounds := some bounds
            tokens := some (select_tokens [tt.1, tt.2])
            tail := tail }
      make_time res local_time input
  | Option.none => { RuleResult.new with tail := input }

/-- Rule interpreter function type (`FnRule` in the source): candidate text,
exact-match flag and reference timestamp to a `RuleResult`. -/
abbrev FnRule := Str → Bool → Tm → RuleResult

/-- Externally visible match (`MatchResult` in the source's data model,
constructed as `MatchResult::new(tokens, time_shift, start, end)`): the
derived tokens, the derived value, and absolute start/end offsets. -/
structure MatchResult where
  tokens : List Token
  time_shift : Option TimeShift
  start_idx : Nat
  end_idx : Nat
deriving DecidableEq

/-- Full outcome of one rule attempt, when both tokens and bounds are
present — exactly the pattern `RuleResult { tail, tokens: Some(tokens),
bounds: Some(bounds), time_shift }` matched by `apply_generic`. -/
def full_outcome (r : RuleResult) :
    Option (Str × List Token × MatchBounds × Option TimeShift) :=
  match r.tokens, r.bounds with
  | some tokens, some bounds => some (r.tail, tokens, bounds, r.time_shift)
  | _, _ => Option.none

/-- Inner loop of `apply_generic` (src/rules/src/lib.rs): try each rule in
order on the current input, each with a fresh timestamp `clock k`, and stop
at the first full outcome; returns the outcome (if any) and the next
timestamp index. -/
def find_rule (rules : List FnRule) (input : Str) (exact_match : Bool)
    (clock : Nat → Tm) (k : Nat) :
    Option (Str × List Token × MatchBounds × Option TimeShift) × Nat :=
  match rules with
  | [] => (Option.none, k)
  | r :: rs =>
      match full_outcome (r input exact_match (clock k)) with
      | some o => (some o, k + 1)
      | Option.none => find_rule rs input exact_match clock (k + 1)

/-- Outer loop of `apply_generic` (src/rules/src/lib.rs), with explicit fuel
bounding the number of passes: when some rule yields a full outcome, emit a
`MatchResult` whose span is the relative span shifted by
`end_of_last_match_idx`, continue on the tail with the offset advanced by the
relative end index; when no rule matches, return the matches collected so
far.  `none` models a run that did not finish within the given fuel. -/
def apply_generic_fuel (clock : Nat → Tm) (rules : List FnRule)
    (exact_match : Bool) :
    Nat → Str → Nat → Nat → Option (List MatchResult)
  | 0, _, _, _ => Option.none
  | fuel + 1, input, end_of_last_match_idx, k =>
      match find_rule rules input exact_match clock k with
      | (Option.none, _) => some []
      | (some (tail, tokens, bounds, ts), k2) =>
          match apply_generic_fuel clock rules exact_match fuel tail
              (end_of_last_match_idx + bounds.end_idx) k2 with
          | Option.none => Option.none
          | some rest =>
              some (MatchResult.mk tokens ts
                  (end_of_last_match_idx + bounds.start_idx)
                  (end_of_last_match_idx + bounds.end_idx) :: rest)

/-- Scanning loop (`apply_generic` in src/rules/src/lib.rs) started at offset
0 and timestamp index 0. -/
def apply_generic (clock : Nat → Tm) (input : Str) (rules : List FnRule)
    (exact_match : Bool) (fuel : Nat) : Option (List MatchResult) :=
  apply_generic_fuel clock rules exact_match fuel input 0 0

/-- The hour rule as a rule-interpreter function value. -/
def hour_rule : FnRule :=
  fun input exact_match t => interpret input exact_match t

/-- Adversarial interpreter used to probe the termination claim: it always
reports a full match whose tail is the entire input. -/
def bad_rule : FnRule :=
  fun input _ _ => ⟨input, some [], some ⟨0, 0⟩, Option.none⟩

/-- Progress property of a rule interpreter: whenever it reports a full
outcome, the returned tail is strictly shorter than its input.  Every
interpreter generated by `make_interpreter!` from a consuming parser has
it. -/
def RuleProgress (r : FnRule) : Prop :=
  ∀ inp em t out, full_outcome (r inp em t) = some out →
    out.1.length < inp.length

/-- Bounds well-formedness of a rule interpreter: every span it reports has
its start at or before its end. -/
def RuleBoundsWF (r : FnRule) : Prop :=
  ∀ inp em t b, (r inp em t).bounds = some b → b.start_idx ≤ b.end_idx

lemma ltrim_length_le (s : Str) : (ltrim s).length ≤ s.length := by
  simpa [ltrim] using (List.dropWhile_sublist (p := isSep) (l := s)).length_le

lemma tokenize_word_lengths (s : Str) :
    (tokenize_word s).1.length + (tokenize_word s).2.length ≤ s.length := by
  have h : ((ltrim s).takeWhile Char.isAlpha).length +
      ((ltrim s).dropWhile Char.isAlpha).length = (ltrim s).length := by
    conv_rhs => rw [← List.takeWhile_append_dropWhile (p := Char.isAlpha) (l := ltrim s)]
    rw [List.length_append]
  have h2 := ltrim_length_le s
  simp only [tokenize_word]
  omega

lemma recognize_word_ok {input pattern : Str} {maxd : Nat} {tok : PToken}
    {tail : Str} {td : TokenDesc}
    (h : recognize_word input pattern maxd tok = MyResult.ok tail td) :
    td.token = tok ∧ td.dist ≤ maxd ∧ tail = (tokenize_word input).1 ∧
      tail.length < input.length := by
  have hlen := tokenize_word_lengths input
  simp only [recognize_word, wrap_error] at h
  split_ifs at h with h1 h2 h3 h4 <;> cases h
  all_goals
    have hne : (tokenize_word input).2.length ≠ 0 := fun hc =>
      h1 (List.length_eq_zero.mp hc)
  · exact ⟨rfl, Nat.zero_le maxd, rfl, by omega⟩
  · exact ⟨rfl, h4, rfl, by omega⟩

/-- C3: recognize_word fails with Empty when the tokenized word is empty;
with maximum distance 0 it succeeds exactly on literal equality with the
target (at distance 0); with maximum distance at least 1 it succeeds exactly
when the Damerau-Levenshtein distance to the target is within the maximum,
returning the observed distance; and every returned match's distance is at
most the configured maximum. -/
theorem recognize_word_characterization
    (input pattern : Str) (maxd : Nat) (tok : PToken) (tail word : Str)
    (htw : tokenize_word input = (tail, word)) :
    (word = [] →
      recognize_word input pattern maxd tok = wrap_error input ParseErr.empty) ∧
    (word ≠ [] → maxd = 0 →
      (word = pattern →
        recognize_word input pattern maxd tok = MyResult.ok tail ⟨tok, 0⟩) ∧
      (word ≠ pattern →
        recognize_word input pattern maxd tok = wrap_error input ParseErr.unknown)) ∧
    (word ≠ [] → 1 ≤ maxd →
      (damerau_levenshtein word pattern ≤ maxd →
        recognize_word input pattern maxd tok =
          MyResult.ok tail ⟨tok, damerau_levenshtein word pattern⟩) ∧
      (¬ damerau_levenshtein word pattern ≤ maxd →
        recognize_word input pattern maxd tok = wrap_error input ParseErr.unknown)) ∧
    (∀ tl td, recognize_word input pattern maxd tok = MyResult.ok tl td →
      td.dist ≤ maxd) := by
  refine ⟨?_, ?_, ?_, ?_⟩
  · intro hw
    simp [recognize_word, htw, hw]
  · intro hw hmax
    constructor
    · intro heq
      subst heq
      simp [recognize_word, htw, hw, hmax]
    · intro heq
      simp [recognize_word, htw, hw, hmax, heq]
  · intro hw hmax
    have hmax0 : maxd ≠ 0 := by omega
    constructor <;> intro hle <;> simp [recognize_word, htw, hw, hmax0, hle]
  · intro tl td h
    exact (recognize_word_ok h).2.1

/-- Witness for C3: concrete instances of all three behaviours — empty word,
exact mode, and fuzzy mode at distance 1. -/
theorem recognize_word_characterization_witness :
    recognize_word (" ,5".toList) ("am".toList) 2 PToken.stub =
      wrap_error (" ,5".toList) ParseErr.empty ∧
    recognize_word ("pm ".toList) ("pm".toList) 0 PToken.stub =
      MyResult.ok (" ".toList) ⟨PToken.stub, 0⟩ ∧
    recognize_word (" abc".toList) ("abd".toList) 1 PToken.stub =
      MyResult.ok [] ⟨PToken.stub, damerau_levenshtein ("abc".toList) ("abd".toList)⟩ := by
  refine ⟨?_, ?_, ?_⟩
  · exact (recognize_word_characterization (" ,5".toList) ("am".toList) 2
      PToken.stub ("5".toList) [] (by decide)).1 rfl
  · exact ((recognize_word_characterization ("pm ".toList) ("pm".toList) 0
      PToken.stub (" ".toList) ("pm".toList) (by decide)).2.1
      (by decide) rfl).1 rfl
  · exact ((recognize_word_characterization (" abc".toList) ("abd".toList) 1
      PToken.stub [] ("abc".toList) (by decide)).2.2.1
      (by decide) (by decide)).1 (by decide)

lemma recognize_uint_tail {s tail : Str} {n : Nat}
    (h : recognize_uint s = some (tail, n)) : tail.length < s.length := by
  simp only [recognize_uint] at h
  split_ifs at h with h1 h2
  all_goals cases h
  case _ =>
    have hlen : ((ltrim s).takeWhile Char.isDigit).length +
        ((ltrim s).dropWhile Char.isDigit).length = (ltrim s).length := by
      conv_rhs => rw [← List.takeWhile_append_dropWhile (p := Char.isDigit) (l := ltrim s)]
      rw [List.length_append]
    have h3 := ltrim_length_le s
    have h4 : ((ltrim s).takeWhile Char.isDigit).length ≠ 0 := fun hc =>
      h1 (List.length_eq_zero.mp hc)
    omega

/-- C7: the bounded numeric recognizer succeeds with the constructed token at
distance 0 exactly when the parsed value lies within the closed bounds, fails
with OutOfBounds (not Unknown) when the value is outside them, and fails with
Unknown when no number was parsed at all. -/
theorem define_num_characterization
    (ctor : Nat → Token) (p : Int) (lo hi : Nat) (input : Str) :
    (recognize_uint input = Option.none →
      define_num ctor p lo hi input = wrap_error input ParseErr.unknown) ∧
    (∀ tail n, recognize_uint input = some (tail, n) →
      (lo ≤ n ∧ n ≤ hi →
        define_num ctor p lo hi input =
          MyResult.ok tail ⟨PToken.ptoken (ctor n) p, 0⟩) ∧
      (¬ (lo ≤ n ∧ n ≤ hi) →
        define_num ctor p lo hi input = wrap_error input ParseErr.outOfBounds)) := by
  constructor
  · intro h
    simp [define_num, h]
  · intro tail n h
    constructor <;> intro hb <;> simp [define_num, h, hb]

/-- Witness for C7: the hour recognizer, bounded by [0, 12], accepts "12"
with value 12 at distance 0 and rejects "13" with OutOfBounds. -/
theorem define_num_characterization_witness :
    hour ("12".toList) = MyResult.ok [] ⟨PToken.ptoken (Token.hour 12) 0, 0⟩ ∧
    hour ("13".toList) = wrap_error ("13".toList) ParseErr.outOfBounds := by
  constructor
  · exact ((define_num_characterization Token.hour 0 0 12 ("12".toList)).2
      [] 12 (by decide)).1 (by decide)
  · exact ((define_num_characterization Token.hour 0 0 12 ("13".toList)).2
      [] 13 (by decide)).2 (by decide)

lemma bf_fold_eq_succs (input : Str) (em : Bool)
    (funcs : List (Str → Bool → MyResult)) : ∀ st : BFState,
    funcs.foldl
      (fun st f =>
        match f input em with
        | MyResult.ok tail td => bf_step st (tail, td)
        | MyResult.error _ _ => st)
      st
    = (bf_succs input em funcs).foldl bf_step st := by
  induction funcs with
  | nil => intro st; rfl
  | cons f fs ih =>
      intro st
      simp only [List.foldl_cons, bf_succs, List.filterMap_cons]
      cases hf : f input em with
      | ok tail td =>
          simp only [bf_try, hf, List.foldl_cons]
          exact ih (bf_step st (tail, td))
      | error i c =>
          simp only [bf_try, hf]
          exact ih st

lemma bf_min_append (L : List (Str × TokenDesc)) (x : Str × TokenDesc) :
    bf_min (L ++ [x]) = min (bf_min L) x.2.dist := by
  simp [bf_min, List.foldl_append]

lemma bf_min_le {L : List (Str × TokenDesc)} {r : Str × TokenDesc}
    (h : r ∈ L) : bf_min L ≤ r.2.dist := by
  induction L using List.reverseRecOn with
  | nil => cases h
  | append_singleton M x ih =>
      rw [bf_min_append]
      rcases List.mem_append.mp h with hM | hx
      · exact le_trans (min_le_left _ _) (ih hM)
      · rw [List.mem_singleton.mp hx]
        exact min_le_right _ _

lemma bf_fold_char : ∀ L : List (Str × TokenDesc),
    (∀ r ∈ L, r.2.dist < USIZE_MAX) → L ≠ [] →
    (L.foldl bf_step bf_init).min_dist = bf_min L ∧
    (L.foldl bf_step bf_init).selected_count = (bf_achievers L).length ∧
    (bf_achievers L).head? =
      some ((L.foldl bf_step bf_init).selected_tail,
        ⟨(L.foldl bf_step bf_init).selected_token, bf_min L⟩) := by
  intro L
  induction L using List.reverseRecOn with
  | nil => intro _ hne; exact absurd rfl hne
  | append_singleton M x ih =>
      intro hd _
      have hdx : x.2.dist < USIZE_MAX := hd x (by simp)
      rw [List.foldl_append, List.foldl_cons, List.foldl_nil]
      by_cases hM : M = []
      · subst hM
        simp only [List.foldl_nil, List.nil_append]
        have hmin : bf_min [x] = x.2.dist := by
          have h1 : bf_min [x] = min (bf_min []) x.2.dist := bf_min_append [] x
          have h2 : bf_min [] = USIZE_MAX := rfl
          omega
        have hstep : bf_step bf_init x = ⟨x.2.dist, x.2.token, 1, x.1⟩ := by
          simp only [bf_step, bf_init]
          rw [if_pos]
          exact hdx
        have hach : bf_achievers [x] = [x] := by
          simp [bf_achievers, hmin]
        rw [hstep, hach, hmin]
        exact ⟨rfl, rfl, rfl⟩
      · have hdM : ∀ r ∈ M, r.2.dist < USIZE_MAX := fun r hr =>
          hd r (List.mem_append.mpr (Or.inl hr))
        obtain ⟨hmin, hcnt, hhead⟩ := ih hdM hM
        set st := M.foldl bf_step bf_init with hst
        have hAne : bf_achievers M ≠ [] := by
          intro hc
          rw [hc] at hhead
          cases hhead
        rcases Nat.lt_trichotomy x.2.dist (bf_min M) with hlt | heq | hgt
        · -- strict improvement: x becomes the sole achiever
          have hstep : bf_step st x = ⟨x.2.dist, x.2.token, 1, x.1⟩ := by
            simp only [bf_step]
            rw [if_pos]
            omega
          have hmin2 : bf_min (M ++ [x]) = x.2.dist := by
            rw [bf_min_append]; omega
          have hfilter : M.filter (fun r => r.2.dist = bf_min (M ++ [x])) = [] := by
            rw [List.filter_eq_nil_iff]
            intro r hr
            have := bf_min_le hr
            simp only [hmin2, decide_eq_true_eq]
            omega
          have hach : bf_achievers (M ++ [x]) = [x] := by
            simp only [bf_achievers, List.filter_append, hfilter, List.nil_append]
            simp [hmin2]
          rw [hstep, hach, hmin2]
          exact ⟨rfl, rfl, rfl⟩
        · -- tie: x joins the achievers
          have hstep : bf_step st x =
              ⟨st.min_dist, st.selected_token, st.selected_count + 1,
                st.selected_tail⟩ := by
            simp only [bf_step]
            rw [if_neg, if_pos]
            · omega
            · omega
          have hmin2 : bf_min (M ++ [x]) = bf_min M := by
            rw [bf_min_append]; omega
          have hach : bf_achievers (M ++ [x]) = bf_achievers M ++ [x] := by
            simp only [bf_achievers, List.filter_append, hmin2]
            congr 1
            simp [List.filter, heq]
          rw [hstep, hach, hmin2]
          refine ⟨hmin, by simp [hcnt], ?_⟩
          cases hA : bf_achievers M with
          | nil => exact absurd hA hAne
          | cons a A =>
              rw [hA] at hhead
              simpa using hhead
        · -- x is worse: state unchanged
          have hstep : bf_step st x = st := by
            simp only [bf_step]
            rw [if_neg, if_neg]
            · omega
            · omega
          have hmin2 : bf_min (M ++ [x]) = bf_min M := by
            rw [bf_min_append]; omega
          have hach : bf_achievers (M ++ [x]) = bf_achievers M := by
            simp only [bf_achievers, List.filter_append, hmin2]
            have hx : List.filter (fun r => decide (r.2.dist = bf_min M)) [x] = [] := by
              have hne : decide (x.2.dist = bf_min M) = false := by
                simp only [decide_eq_false_iff_not]
                omega
              simp [List.filter_singleton, hne]
            rw [hx, List.append_nil]
          rw [hstep, hach, hmin2]
          exact ⟨hmin, hcnt, hhead⟩

/-- C2: best_fit runs every candidate on the same input and keeps the
minimal observed edit distance: with no successful candidate it fails with
Unknown; when exactly one successful candidate achieves the minimal distance
it returns that candidate's match (its token, its tail, and the minimal
distance); when two or more achieve it, it fails with Ambiguous.  The
hypothesis that observed distances stay below usize::MAX reflects the loop's
sentinel initial value. -/
theorem best_fit_min_characterization
    (input : Str) (em : Bool) (funcs : List (Str → Bool → MyResult))
    (hd : ∀ r ∈ bf_succs input em funcs, r.2.dist < USIZE_MAX) :
    (bf_succs input em funcs = [] →
      best_fit input em funcs = wrap_error input ParseErr.unknown) ∧
    (∀ a, bf_achievers (bf_succs input em funcs) = [a] →
      best_fit input em funcs = MyResult.ok a.1 a.2) ∧
    (2 ≤ (bf_achievers (bf_succs input em funcs)).length →
      best_fit input em funcs = wrap_error input ParseErr.ambiguous) := by
  have hfold := bf_fold_eq_succs input em funcs bf_init
  refine ⟨?_, ?_, ?_⟩
  · intro hnil
    simp only [best_fit, hfold, hnil, List.foldl_nil]
    rfl
  · intro a hach
    have hne : bf_succs input em funcs ≠ [] := by
      intro hc
      rw [hc] at hach
      cases hach
    obtain ⟨hmin, hcnt, hhead⟩ := bf_fold_char (bf_succs input em funcs) hd hne
    rw [hach] at hcnt hhead
    simp only [List.length_singleton] at hcnt
    simp only [List.head?_cons, Option.some.injEq] at hhead
    subst hhead
    simp only [best_fit, hfold, hcnt, if_pos rfl, hmin, if_true]
  · intro h2
    have hne : bf_succs input em funcs ≠ [] := by
      intro hc
      rw [hc] at h2
      simp [bf_achievers] at h2
    obtain ⟨hmin, hcnt, hhead⟩ := bf_fold_char (bf_succs input em funcs) hd hne
    have hc1 : ((bf_succs input em funcs).foldl bf_step bf_init).selected_count ≠ 1 := by
      omega
    have hc2 : ((bf_succs input em funcs).foldl bf_step bf_init).selected_count > 1 := by
      omega
    simp only [best_fit, hfold]
    rw [if_neg hc1, if_pos hc2]

/-- Witness for C2: on input "a" the fuzzy candidates for "am" and "a."
(each with tolerance 1) both match at distance 1, so best_fit fails with
Ambiguous. -/
theorem best_fit_min_characterization_witness :
    best_fit ("a".toList) false
      [fun inp em => recognize_word inp ("am".toList) (set_max 1 em)
         (PToken.ptoken (Token.tWhen When.am) 1),
       fun inp em => recognize_word inp ("a.".toList) (set_max 1 em)
         (PToken.ptoken (Token.tWhen When.am) 1)]
      = wrap_error ("a".toList) ParseErr.ambiguous := by
  exact (best_fit_min_characterization ("a".toList) false
    [fun inp em => recognize_word inp ("am".toList) (set_max 1 em)
       (PToken.ptoken (Token.tWhen When.am) 1),
     fun inp em => recognize_word inp ("a.".toList) (set_max 1 em)
       (PToken.ptoken (Token.tWhen When.am) 1)]
    (by decide)).2.2 (by decide)

lemma best_fit_ok_mem {input tail : Str} {em : Bool} {td : TokenDesc}
    {funcs : List (Str → Bool → MyResult)}
    (hd : ∀ r ∈ bf_succs input em funcs, r.2.dist < USIZE_MAX)
    (h : best_fit input em funcs = MyResult.ok tail td) :
    (tail, td) ∈ bf_succs input em funcs := by
  have hfold := bf_fold_eq_succs input em funcs bf_init
  by_cases hne : bf_succs input em funcs = []
  · rw [best_fit, hfold, hne] at h
    simp only [List.foldl_nil] at h
    cases h
  · obtain ⟨hmin, hcnt, hhead⟩ := bf_fold_char (bf_succs input em funcs) hd hne
    rw [best_fit, hfold] at h
    split_ifs at h with h1 h2
    · cases h
      have hmem : ((bf_succs input em funcs).foldl bf_step bf_init |>.selected_tail,
          (⟨((bf_succs input em funcs).foldl bf_step bf_init).selected_token,
            bf_min (bf_succs input em funcs)⟩ : TokenDesc)) ∈
            bf_achievers (bf_succs input em funcs) :=
        List.mem_of_mem_head? (Option.mem_def.mpr hhead)
      have hsub := List.mem_of_mem_filter hmem
      rw [← hmin] at hsub
      exact hsub
    · cases h
    · cases h

lemma bf_succs_mem {input : Str} {em : Bool} {r : Str × TokenDesc}
    {funcs : List (Str → Bool → MyResult)}
    (h : r ∈ bf_succs input em funcs) :
    ∃ f ∈ funcs, f input em = MyResult.ok r.1 r.2 := by
  obtain ⟨f, hf, hr⟩ := List.mem_filterMap.mp h
  refine ⟨f, hf, ?_⟩
  simp only [bf_try] at hr
  cases hfr : f input em with
  | ok tail td =>
      rw [hfr] at hr
      cases hr
      rfl
  | error i c =>
      rw [hfr] at hr
      cases hr

lemma set_max_zero (em : Bool) : set_max 0 em = 0 := by
  cases em <;> rfl

lemma am_ok {input tail : Str} {em : Bool} {td : TokenDesc}
    (h : am input em = MyResult.ok tail td) :
    td.dist = 0 ∧ tail.length < input.length := by
  simp only [am, alt2] at h
  repeat' split at h
  all_goals first
    | (cases h
       rename_i heq
       obtain ⟨_, hdist, _, hlen⟩ := recognize_word_ok heq
       rw [set_max_zero] at hdist
       exact ⟨Nat.le_zero.mp hdist, hlen⟩)
    | (obtain ⟨_, hdist, _, hlen⟩ := recognize_word_ok h
       rw [set_max_zero] at hdist
       exact ⟨Nat.le_zero.mp hdist, hlen⟩)

lemma pm_ok {input tail : Str} {em : Bool} {td : TokenDesc}
    (h : pm input em = MyResult.ok tail td) :
    td.dist = 0 ∧ tail.length < input.length := by
  simp only [pm, alt2] at h
  repeat' split at h
  all_goals first
    | (cases h
       rename_i heq
       obtain ⟨_, hdist, _, hlen⟩ := recognize_word_ok heq
       rw [set_max_zero] at hdist
       exact ⟨Nat.le_zero.mp hdist, hlen⟩)
    | (obtain ⟨_, hdist, _, hlen⟩ := recognize_word_ok h
       rw [set_max_zero] at hdist
       exact ⟨Nat.le_zero.mp hdist, hlen⟩)

lemma when_comb_ok {input tail : Str} {em : Bool} {td : TokenDesc}
    (h : when_comb input em = MyResult.ok tail td) :
    tail.length < input.length := by
  have hd : ∀ r ∈ bf_succs input em [am, pm], r.2.dist < USIZE_MAX := by
    intro r hr
    obtain ⟨f, hf, hfr⟩ := bf_succs_mem hr
    have humax : (0:Nat) < USIZE_MAX := by decide
    rcases List.mem_pair.mp hf with rfl | rfl
    · have := (am_ok hfr).1
      omega
    · have := (pm_ok hfr).1
      omega
  have hmem := best_fit_ok_mem hd h
  obtain ⟨f, hf, hfr⟩ := bf_succs_mem hmem
  rcases List.mem_pair.mp hf with rfl | rfl
  · exact (am_ok hfr).2
  · exact (pm_ok hfr).2

lemma hour_when_len {input tail : Str} {em : Bool} {tt : TokenDesc × TokenDesc}
    (h : hour_when input em = some (tail, tt)) :
    tail.length + 2 ≤ input.length := by
  cases hh : hour input with
  | error i c => simp [hour_when, hh] at h
  | ok t1 d1 =>
      cases hw : when_comb t1 em with
      | error i c => simp [hour_when, hh, hw] at h
      | ok t2 d2 =>
          simp only [hour_when, hh, hw, Option.some.injEq, Prod.mk.injEq] at h
          obtain ⟨rfl, -⟩ := h
          have h1 : t1.length < input.length := by
            cases hu : recognize_uint input with
            | none => simp [hour, define_num, hu, wrap_error] at hh
            | some r =>
                obtain ⟨rt, rn⟩ := r
                simp only [hour, define_num, hu] at hh
                split_ifs at hh with hb
                · cases hh
                  exact recognize_uint_tail hu
                · cases hh
          have h2 := when_comb_ok hw
          omega

lemma hour_parse_go_spec {em : Bool} : ∀ (inp : Str) (acc : List Str)
    (tail : Str) (sk : List Str) (tt : TokenDesc × TokenDesc),
    hour_parse_go em inp acc = some (tail, (sk, tt)) →
    ∃ j, sk.length = acc.length + j ∧ tail.length + 2 + j ≤ inp.length := by
  intro inp
  induction inp with
  | nil =>
      intro acc tail sk tt h
      rw [hour_parse_go] at h
      cases hw : hour_when [] em with
      | some r =>
          obtain ⟨t, tt2⟩ := r
          have := hour_when_len hw
          simp at this
      | none =>
          rw [hw] at h
          cases h
  | cons c rest ih =>
      intro acc tail sk tt h
      rw [hour_parse_go] at h
      cases hw : hour_when (c :: rest) em with
      | some r =>
          obtain ⟨t, tt2⟩ := r
          rw [hw] at h
          cases h
          have := hour_when_len hw
          exact ⟨0, by omega, by simpa using this⟩
      | none =>
          rw [hw] at h
          obtain ⟨j, hj, hlen⟩ := ih (acc ++ [[c]]) tail sk tt h
          refine ⟨j + 1, ?_, ?_⟩
          · simp at hj
            omega
          · simp at hlen ⊢
            omega

lemma hour_parse_len {input tail : Str} {em : Bool} {sk : List Str}
    {tt : TokenDesc × TokenDesc}
    (h : hour_parse input em = some (tail, (sk, tt))) :
    tail.length + 2 + sk.length ≤ input.length := by
  obtain ⟨j, hj, hlen⟩ := hour_parse_go_spec input [] tail sk tt h
  simp at hj
  omega

lemma make_time_fields (res : RuleResult) (t : Tm) (inp : Str) :
    (make_time res t inp).tail = res.tail ∧
    (make_time res t inp).tokens = res.tokens ∧
    (make_time res t inp).bounds = res.bounds ∧
    ((make_time res t inp).time_shift.isSome ↔ res.time_shift.isSome) := by
  cases hts : res.time_shift <;> simp [make_time, hts]

lemma interpret_cases (input : Str) (em : Bool) (t : Tm) :
    (hour_parse input em = Option.none ∧
      interpret input em t =
        { tail := input, tokens := Option.none, bounds := Option.none,
          time_shift := some ⟨0⟩ }) ∨
    (∃ tail sk tt, hour_parse input em = some (tail, (sk, tt)) ∧
      (interpret input em t).tail = tail ∧
      (interpret input em t).tokens = some (select_tokens [tt.1, tt.2]) ∧
      (interpret input em t).bounds = some (match_bounds sk input tail) ∧
      (interpret input em t).time_shift.isSome) := by
  cases hp : hour_parse input em with
  | none =>
      left
      refine ⟨rfl, ?_⟩
      simp [interpret, hp, RuleResult.new]
  | some r =>
      right
      obtain ⟨tail, sk, tt⟩ := r
      refine ⟨tail, sk, tt, rfl, ?_⟩
      simp only [interpret, hp]
      obtain ⟨h1, h2, h3, h4⟩ := make_time_fields
        { RuleResult.new with
            bounds := some (match_bounds sk input tail)
            tokens := some (select_tokens [tt.1, tt.2])
            tail := tail } t input
      refine ⟨h1, by rw [h2], by rw [h3], ?_⟩
      rw [h4]
      rfl

/-- C5: for every successful rule match, the relative span recorded by the
interpreter is computed by match_bounds as start = 0 when no leading
characters were skipped and skipped_count + 1 otherwise, and
end = input_length - tail_length - 1. -/
theorem match_bounds_formula (input : Str) (em : Bool) (t : Tm)
    (b : MatchBounds) (h : (interpret input em t).bounds = some b) :
    ∃ tail sk tt, hour_parse input em = some (tail, (sk, tt)) ∧
      b = match_bounds sk input tail ∧
      b.start_idx = (if sk.length = 0 then 0 else sk.length + 1) ∧
      b.end_idx = input.length - tail.length - 1 := by
  rcases interpret_cases input em t with ⟨-, hfail⟩ | ⟨tail, sk, tt, hp, -, -, hb, -⟩
  · rw [hfail] at h
    cases h
  · rw [hb] at h
    cases h
    exact ⟨tail, sk, tt, hp, rfl, rfl, rfl⟩

/-- Witness for C5: on "at 5 pm" the hour rule matches after skipping two
characters, giving start = 2 + 1 = 3 and end = 7 - 0 - 1 = 6. -/
theorem match_bounds_formula_witness :
    ∃ tail sk tt, hour_parse ("at 5 pm".toList) false = some (tail, (sk, tt)) ∧
      (⟨3, 6⟩ : MatchBounds) = match_bounds sk ("at 5 pm".toList) tail ∧
      (⟨3, 6⟩ : MatchBounds).start_idx =
        (if sk.length = 0 then 0 else sk.length + 1) ∧
      (⟨3, 6⟩ : MatchBounds).end_idx =
        ("at 5 pm".toList).length - tail.length - 1 := by
  exact match_bounds_formula ("at 5 pm".toList) false 0 ⟨3, 6⟩ (by decide)

/-- C6: every span the hour rule interpreter reports satisfies
start ≤ end ≤ length of the slice it was computed against. -/
theorem interpret_bounds_well_formed (input : Str) (em : Bool) (t : Tm)
    (b : MatchBounds) (h : (interpret input em t).bounds = some b) :
    b.start_idx ≤ b.end_idx ∧ b.end_idx ≤ input.length := by
  obtain ⟨tail, sk, tt, hp, hb, hs, he⟩ := match_bounds_formula input em t b h
  have hlen := hour_parse_len hp
  constructor
  · rw [hs, he]
    split_ifs <;> omega
  · rw [he]
    omega

/-- Witness for C6: the span of the hour rule's match on "at 5 pm". -/
theorem interpret_bounds_well_formed_witness :
    (3 : Nat) ≤ 6 ∧ (6 : Nat) ≤ ("at 5 pm".toList).length := by
  exact interpret_bounds_well_formed ("at 5 pm".toList) false 0 ⟨3, 6⟩ (by decide)

/-- Counterexample to C8 as stated: on an input where the rule matches
nowhere, the interpreter's returned outcome does NOT have its derived value
absent — the derived-value slot holds its initialized default, as forced by
the unconditional unwrap in make_time (src/rules/src/en/hour.rs line 59). -/
theorem interpret_failure_time_shift_present :
    (interpret ("next friday".toList) false 0).time_shift ≠ Option.none := by
  decide

/-- C8 (amended): when the rule matches nowhere, the interpreter returns a
RuleOutcome whose tail is the entire original input and whose tokens and
span are absent, with the derived-value slot left at its initialized
default — no error is returned; and on success tail, tokens, span and
derived value are all populated. -/
theorem interpret_failure_outcome (input : Str) (em : Bool) (t : Tm) :
    (hour_parse input em = Option.none →
      interpret input em t =
        { tail := input, tokens := Option.none, bounds := Option.none,
          time_shift := some ⟨0⟩ }) ∧
    (∀ tail sk tt, hour_parse input em = some (tail, (sk, tt)) →
      (interpret input em t).tail = tail ∧
      (interpret input em t).tokens.isSome ∧
      (interpret input em t).bounds.isSome ∧
      (interpret input em t).time_shift.isSome) := by
  constructor
  · intro hp
    rcases interpret_cases input em t with ⟨-, hfail⟩ | ⟨tail, sk, tt, hp2, -⟩
    · exact hfail
    · rw [hp] at hp2
      cases hp2
  · intro tail sk tt hp
    rcases interpret_cases input em t with ⟨hnone, -⟩ | ⟨tail2, sk2, tt2, hp2, h1, h2, h3, h4⟩
    · rw [hp] at hnone
      cases hnone
    · rw [hp] at hp2
      cases hp2
      exact ⟨h1, by rw [h2]; rfl, by rw [h3]; rfl, h4⟩

/-- Witness for C8's amended theorem: failure on "next friday" (whole input
as tail, no tokens, no span, default derived value) and success on "5pm"
(everything populated). -/
theorem interpret_failure_outcome_witness :
    interpret ("next friday".toList) false 0 =
      { tail := "next friday".toList, tokens := Option.none,
        bounds := Option.none, time_shift := some ⟨0⟩ } ∧
    ((interpret ("5pm".toList) false 0).tail = [] ∧
      (interpret ("5pm".toList) false 0).tokens.isSome ∧
      (interpret ("5pm".toList) false 0).bounds.isSome ∧
      (interpret ("5pm".toList) false 0).time_shift.isSome) := by
  constructor
  · exact (interpret_failure_outcome ("next friday".toList) false 0).1 (by decide)
  · exact (interpret_failure_outcome ("5pm".toList) false 0).2 []
      [] (⟨⟨PToken.ptoken (Token.hour 5) 0, 0⟩, ⟨PToken.ptoken (Token.tWhen When.pm) 1, 0⟩⟩)
      (by decide)

/-- C4: the semantic derivation maps [Hour(n), When(PM)] to n + 12 hours and
[Hour(n), When(AM)] to n hours, each times the hour unit, and "5pm" indeed
yields tokens [Hour(5), When(PM)] with inclusive span 0..2 and 17 hours;
but on "at 12 a." the rule matches nowhere (the tokenizer stops at the dot,
so the dotted meridiem spellings can never match), contradicting the
repository's own test test_am, which expects tokens [Hour(12), When(AM)]
and 12 hours. -/
theorem hour_rule_dotted_meridiem_divergence :
    interpret ("5pm".toList) false 0 =
      { tail := [], tokens := some [Token.hour 5, Token.tWhen When.pm],
        bounds := some ⟨0, 2⟩, time_shift := some ⟨17 * HOUR⟩ } ∧
    (interpret ("at 12 a.".toList) false 0).tokens = Option.none ∧
    (interpret ("at 12 a.".toList) false 0).bounds = Option.none ∧
    (interpret ("at 5 a.m.".toList) false 0).tokens = Option.none := by
  refine ⟨by decide, by decide, by decide, by decide⟩

lemma full_outcome_some {r : RuleResult} {tail : Str} {tokens : List Token}
    {bounds : MatchBounds} {ts : Option TimeShift}
    (h : full_outcome r = some (tail, tokens, bounds, ts)) :
    r.tail = tail ∧ r.tokens = some tokens ∧ r.bounds = some bounds ∧
      r.time_shift = ts := by
  cases htok : r.tokens with
  | none => simp [full_outcome, htok] at h
  | some tks =>
      cases hb : r.bounds with
      | none => simp [full_outcome, htok, hb] at h
      | some bds =>
          simp only [full_outcome, htok, hb, Option.some.injEq, Prod.mk.injEq] at h
          obtain ⟨h1, h2, h3, h4⟩ := h
          exact ⟨h1, by rw [h2], by rw [h3], h4⟩

lemma find_rule_some_mem {rules : List FnRule} {input tail : Str} {em : Bool}
    {clock : Nat → Tm} {k k2 : Nat} {tokens : List Token}
    {bounds : MatchBounds} {ts : Option TimeShift}
    (h : find_rule rules input em clock k = (some (tail, tokens, bounds, ts), k2)) :
    ∃ r ∈ rules, ∃ t, full_outcome (r input em t) = some (tail, tokens, bounds, ts) := by
  induction rules generalizing k with
  | nil =>
      rw [find_rule] at h
      cases h
  | cons r rs ih =>
      rw [find_rule] at h
      cases hf : full_outcome (r input em (clock k)) with
      | some o =>
          rw [hf] at h
          injection h with h1 h2
          injection h1 with h1
          subst h1
          exact ⟨r, by simp, clock k, hf⟩
      | none =>
          rw [hf] at h
          obtain ⟨r2, hr2, t, ht⟩ := ih h
          exact ⟨r2, by simp [hr2], t, ht⟩

lemma apply_generic_fuel_invariant {clock : Nat → Tm} {rules : List FnRule}
    {em : Bool} : ∀ (fuel : Nat) (input : Str) (e k : Nat)
    (res : List MatchResult),
    apply_generic_fuel clock rules em fuel input e k = some res →
    (∀ m ∈ res, e ≤ m.start_idx) ∧
    List.Chain' (fun a b => a.end_idx ≤ b.start_idx) res ∧
    ((∀ r ∈ rules, RuleBoundsWF r) → ∀ m ∈ res, m.start_idx ≤ m.end_idx) := by
  intro fuel
  induction fuel with
  | zero =>
      intro input e k res h
      cases h
  | succ fuel ih =>
      intro input e k res h
      rw [apply_generic_fuel] at h
      cases hfr : find_rule rules input em clock k with
      | mk o k2 =>
          rw [hfr] at h
          cases o with
          | none =>
              simp only [] at h
              cases h
              refine ⟨by simp, by simp, fun _ => by simp⟩
          | some out =>
              obtain ⟨tail, tokens, bounds, ts⟩ := out
              simp only [] at h
              cases hrec : apply_generic_fuel clock rules em fuel tail
                  (e + bounds.end_idx) k2 with
              | none => rw [hrec] at h; cases h
              | some rest =>
                  rw [hrec] at h
                  cases h
                  obtain ⟨ih1, ih2, ih3⟩ := ih tail (e + bounds.end_idx) k2 rest hrec
                  refine ⟨?_, ?_, ?_⟩
                  · intro m hm
                    rcases List.mem_cons.mp hm with rfl | hmem
                    · simp
                    · have := ih1 m hmem
                      simp at this ⊢
                      omega
                  · rw [List.chain'_cons']
                    refine ⟨?_, ih2⟩
                    intro y hy
                    have hym := List.mem_of_mem_head? hy
                    have := ih1 y hym
                    simp
                    omega
                  · intro hwf m hm
                    rcases List.mem_cons.mp hm with rfl | hmem
                    · obtain ⟨r, hr, t, ht⟩ := find_rule_some_mem hfr
                      have hb := (full_outcome_some ht).2.2.1
                      have := hwf r hr input em t bounds hb
                      simp
                      omega
                    · exact ih3 hwf m hmem

lemma chain_end_start_strengthen : ∀ (l : List MatchResult),
    List.Chain' (fun a b => a.end_idx ≤ b.start_idx) l →
    (∀ m ∈ l, m.start_idx ≤ m.end_idx) →
    List.Chain' (fun a b => a.end_idx ≤ b.start_idx ∧ a.start_idx ≤ b.start_idx) l := by
  intro l
  induction l with
  | nil => intro _ _; exact List.chain'_nil
  | cons a l ih =>
      intro hc hm
      cases l with
      | nil => exact List.chain'_singleton a
      | cons b l2 =>
          rw [List.chain'_cons] at hc ⊢
          have hab : a.start_idx ≤ a.end_idx := hm a (by simp)
          exact ⟨⟨hc.1, le_trans hab hc.1⟩,
            ih hc.2 (fun m hmem => hm m (List.mem_cons_of_mem a hmem))⟩

/-- C1: every list of matches the scanning loop returns has non-overlapping
absolute spans: each match's absolute start offset is at or after the
previous match's absolute end offset; and (given that every rule reports
well-formed spans, as the repository's interpreters do) the absolute start
offsets are also monotonically non-decreasing. -/
theorem apply_generic_spans_monotone (clock : Nat → Tm) (input : Str)
    (rules : List FnRule) (em : Bool) (fuel : Nat) (res : List MatchResult)
    (h : apply_generic clock input rules em fuel = some res) :
    List.Chain' (fun a b => a.end_idx ≤ b.start_idx) res ∧
    ((∀ r ∈ rules, RuleBoundsWF r) →
      List.Chain' (fun a b => a.end_idx ≤ b.start_idx ∧
        a.start_idx ≤ b.start_idx) res) := by
  obtain ⟨h1, h2, h3⟩ := apply_generic_fuel_invariant fuel input 0 0 res h
  exact ⟨h2, fun hwf => chain_end_start_strengthen res h2 (h3 hwf)⟩

lemma hour_rule_bounds_wf : RuleBoundsWF hour_rule := by
  intro inp em t b hb
  exact (interpret_bounds_well_formed inp em t b hb).1

/-- Witness for C1: scanning "5pm 7am" with the hour rule yields two
matches with spans 0..2 and 2..5; both chain properties hold for them. -/
theorem apply_generic_spans_monotone_witness :
    List.Chain' (fun a b => a.end_idx ≤ b.start_idx)
      ([⟨[Token.hour 5, Token.tWhen When.pm], some ⟨61200⟩, 0, 2⟩,
        ⟨[Token.hour 7, Token.tWhen When.am], some ⟨25200⟩, 2, 5⟩] :
        List MatchResult) ∧
    List.Chain' (fun a b => a.end_idx ≤ b.start_idx ∧
        a.start_idx ≤ b.start_idx)
      ([⟨[Token.hour 5, Token.tWhen When.pm], some ⟨61200⟩, 0, 2⟩,
        ⟨[Token.hour 7, Token.tWhen When.am], some ⟨25200⟩, 2, 5⟩] :
        List MatchResult) := by
  have h := apply_generic_spans_monotone (fun _ => 0) ("5pm 7am".toList)
    [hour_rule] false 3
    [⟨[Token.hour 5, Token.tWhen When.pm], some ⟨61200⟩, 0, 2⟩,
     ⟨[Token.hour 7, Token.tWhen When.am], some ⟨25200⟩, 2, 5⟩]
    (by decide)
  refine ⟨h.1, h.2 ?_⟩
  intro r hr
  rw [List.mem_singleton.mp hr]
  exact hour_rule_bounds_wf

/-- C9: on each pass the scanning loop accepts the first interpreter in list
order whose outcome has both tokens and span present (each attempt drawing
the next fresh timestamp), and when no interpreter produces a full outcome
the loop returns the list of matches accumulated so far — inner errors are
never propagated, the loop's result is always a plain match list. -/
theorem apply_generic_first_full_no_error :
    (∀ (clock : Nat → Tm) (input : Str) (em : Bool) (k : Nat)
        (pre : List FnRule) (r : FnRule) (post : List FnRule)
        (out : Str × List Token × MatchBounds × Option TimeShift),
      (∀ i (h : i < pre.length),
        full_outcome ((pre.get ⟨i, h⟩) input em (clock (k + i))) = Option.none) →
      full_outcome (r input em (clock (k + pre.length))) = some out →
      find_rule (pre ++ r :: post) input em clock k =
        (some out, k + pre.length + 1)) ∧
    (∀ (clock : Nat → Tm) (rules : List FnRule) (input : Str) (em : Bool)
        (fuel e k : Nat),
      (find_rule rules input em clock k).1 = Option.none →
      apply_generic_fuel clock rules em (fuel + 1) input e k = some []) := by
  constructor
  · intro clock input em k pre
    induction pre generalizing k with
    | nil =>
        intro r post out _ hfull
        simp only [List.length_nil, Nat.add_zero] at hfull
        simp only [List.nil_append, find_rule, hfull, List.length_nil]
    | cons p pre ih =>
        intro r post out hnone hfull
        have h0 : full_outcome (p input em (clock (k + 0))) = Option.none :=
          hnone 0 (by simp)
        simp only [Nat.add_zero] at h0
        have hrest : ∀ i (h : i < pre.length),
            full_outcome ((pre.get ⟨i, h⟩) input em (clock (k + 1 + i))) =
              Option.none := by
          intro i hi
          have := hnone (i + 1) (by simp; omega)
          simpa [Nat.add_comm, Nat.add_left_comm, Nat.add_assoc] using this
        have hfull2 : full_outcome (r input em (clock (k + 1 + pre.length))) =
            some out := by
          have : k + 1 + pre.length = k + (pre.length + 1) := by omega
          rw [this]
          simpa [Nat.add_comm, Nat.add_left_comm, Nat.add_assoc] using hfull
        have hstep := ih (k + 1) r post out hrest hfull2
        have harith : k + 1 + pre.length + 1 = k + (p :: pre).length + 1 := by
          simp only [List.length_cons]
          omega
        simp only [List.cons_append, find_rule, h0, List.append_eq]
        rw [hstep, harith]
  · intro clock rules input em fuel e k h
    rw [apply_generic_fuel]
    cases hfr : find_rule rules input em clock k with
    | mk o k2 =>
        rw [hfr] at h
        simp only at h
        subst h
        rfl

/-- Witness for C9: with the hour rule alone, "5pm" is accepted by the first
(and only) interpreter with its full outcome, and on "next friday" no
interpreter matches, so one extra pass returns the empty match list. -/
theorem apply_generic_first_full_no_error_witness :
    find_rule [hour_rule] ("5pm".toList) false (fun _ => 0) 0 =
      (some ([], [Token.hour 5, Token.tWhen When.pm], ⟨0, 2⟩, some ⟨61200⟩), 1) ∧
    apply_generic_fuel (fun _ => 0) [hour_rule] false 1
      ("next friday".toList) 0 0 = some [] := by
  constructor
  · exact apply_generic_first_full_no_error.1 (fun _ => 0) ("5pm".toList)
      false 0 [] hour_rule []
      ([], [Token.hour 5, Token.tWhen When.pm], ⟨0, 2⟩, some ⟨61200⟩)
      (fun i h => absurd h (by simp)) (by decide)
  · exact apply_generic_first_full_no_error.2 (fun _ => 0) [hour_rule]
      ("next friday".toList) false 0 0 0 (by decide)

lemma hour_rule_progress : RuleProgress hour_rule := by
  intro inp em t out hout
  obtain ⟨htail, htok, hb, -⟩ := full_outcome_some hout
  simp only [hour_rule] at htail htok hb
  rcases interpret_cases inp em t with ⟨-, hfail⟩ | ⟨tail, sk, tt, hp, h1, -, -, -⟩
  · rw [hfail] at htok
    cases htok
  · have hlen := hour_parse_len hp
    rw [h1] at htail
    rw [← htail]
    omega

lemma bad_rule_spins : ∀ (fuel e k : Nat),
    apply_generic_fuel (fun _ => 0) [bad_rule] false fuel ("a".toList) e k =
      Option.none := by
  intro fuel
  induction fuel with
  | zero => intro e k; rfl
  | succ fuel ih =>
      intro e k
      rw [apply_generic_fuel]
      have hfr : find_rule [bad_rule] ("a".toList) false (fun _ => 0) k =
          (some ("a".toList, [], ⟨0, 0⟩, Option.none), k + 1) := by
        rfl
      rw [hfr]
      simp only []
      rw [ih (e + 0) (k + 1)]

/-- Counterexample to C10 as stated: with an interpreter that reports a full
match without consuming anything, the scanning loop on the one-character
input "a" is not finished after input-length-plus-one passes, nor after
1000000 passes (indeed bad_rule_spins shows no amount of fuel finishes it),
so its work is not bounded by the input length and it does not terminate. -/
theorem apply_generic_nonterminating_rule :
    apply_generic (fun _ => 0) ("a".toList) [bad_rule] false
      (("a".toList).length + 1) = Option.none ∧
    apply_generic (fun _ => 0) ("a".toList) [bad_rule] false 1000000 =
      Option.none := by
  exact ⟨bad_rule_spins (("a".toList).length + 1) 0 0,
    bad_rule_spins 1000000 0 0⟩

/-- C10 (amended): the scanning loop terminates for every input,
exact-match flag and list of rule interpreters each of which only reports a
full match with a strictly shorter tail (as the repository's interpreters
do, since their parsers consume at least one character): input-length-plus-
one passes always suffice. -/
theorem apply_generic_terminates_of_progress (clock : Nat → Tm)
    (rules : List FnRule) (em : Bool) (input : Str) (e k : Nat)
    (hprog : ∀ r ∈ rules, RuleProgress r) :
    (apply_generic_fuel clock rules em (input.length + 1) input e k).isSome := by
  suffices h : ∀ (fuel : Nat) (inp : Str), inp.length < fuel → ∀ e k,
      (apply_generic_fuel clock rules em fuel inp e k).isSome by
    exact h (input.length + 1) input (by omega) e k
  intro fuel
  induction fuel with
  | zero => intro inp h; omega
  | succ fuel ih =>
      intro inp hlen e2 k2
      rw [apply_generic_fuel]
      cases hfr : find_rule rules inp em clock k2 with
      | mk o k3 =>
          cases o with
          | none => simp
          | some out =>
              obtain ⟨tail, tokens, bounds, ts⟩ := out
              obtain ⟨r, hr, t, ht⟩ := find_rule_some_mem hfr
              have hshort : tail.length < inp.length := hprog r hr inp em t _ ht
              have := ih tail (by omega) (e2 + bounds.end_idx) k3
              cases hrec : apply_generic_fuel clock rules em fuel tail
                  (e2 + bounds.end_idx) k3 with
              | none => rw [hrec] at this; cases this
              | some rest => simp [hrec]

/-- Witness for C10's amended theorem: the hour rule is progressing, and the
loop on "5pm 7am" finishes within length-plus-one passes. -/
theorem apply_generic_terminates_of_progress_witness :
    (apply_generic_fuel (fun _ => 0) [hour_rule] false
      (("5pm 7am".toList).length + 1) ("5pm 7am".toList) 0 0).isSome := by
  exact apply_generic_terminates_of_progress (fun _ => 0) [hour_rule] false
    ("5pm 7am".toList) 0 0
    (fun r hr => List.mem_singleton.mp hr ▸ hour_rule_progress)
